import Mathlib

/-!
Shallow embedding of the Echo State Network notebook (`reservoir.ipynb`):
random-weight spectral-radius rescaling, the reservoir forward recurrence,
the train/evaluate trial protocol, the readout dimension contract, and the
Mackey-Glass sequence generator.  Machine floating point is idealised as
exact real arithmetic.
-/

namespace Reservoir

/-! ### Recurrent weights and the spectral radius

`adjust_spectral_radius` embeds the body of
`EchoStateNetwork.adjust_spectral_radius`:

    eigenvalues, _ = torch.linalg.eig(self.W)
    rhoW = max(abs(eigenvalues))
    self.W *= self.spectral_radius / rhoW

The eigenvalue computation `torch.linalg.eig` is a library call; we model it
relationally: `eigOf W μ` says `μ` is an eigenvalue of the complex matrix
`W`, and `IsSpectralRadius W ρ` says `ρ = max(abs(eigenvalues))`, i.e. `ρ`
is attained by some eigenvalue's absolute value and bounds all of them.
The code performs the rescale unconditionally (there is no guard on
`rhoW = 0`), so the embedding is a total function of the drawn matrix and
its spectral radius. -/

/-- Eigenvalue predicate: `μ` is an eigenvalue of the square complex matrix
`W`. -/
def eigOf {n : ℕ} (W : Matrix (Fin n) (Fin n) ℂ) (μ : ℂ) : Prop :=
  ∃ v : Fin n → ℂ, v ≠ 0 ∧ W.mulVec v = μ • v

/-- Spectral-radius predicate: `ρ` is `max(abs(eigenvalues))` of `W`:
attained by some eigenvalue and an
upper bound for all of them (the value `rhoW` computed by
`adjust_spectral_radius`). -/
def IsSpectralRadius {n : ℕ} (W : Matrix (Fin n) (Fin n) ℂ) (ρ : ℝ) : Prop :=
  (∃ μ, eigOf W μ ∧ Complex.abs μ = ρ) ∧ ∀ μ, eigOf W μ → Complex.abs μ ≤ ρ

/-- The rescaling step `self.W *= self.spectral_radius / rhoW` of
`EchoStateNetwork.adjust_spectral_radius`, as a function of the configured
target `sr`, the computed spectral radius `ρ` of the drawn matrix, and the
drawn matrix `W`.  The source divides unconditionally: there is no branch on
`ρ = 0`. -/
noncomputable def adjust_spectral_radius {n : ℕ} (sr ρ : ℝ) (W : Matrix (Fin n) (Fin n) ℂ) :
    Matrix (Fin n) (Fin n) ℂ :=
  (((sr / ρ : ℝ) : ℂ)) • W

lemma eigOf_smul {n : ℕ} (c : ℂ) {W : Matrix (Fin n) (Fin n) ℂ} {μ : ℂ}
    (h : eigOf W μ) : eigOf (c • W) (c * μ) := by
  obtain ⟨v, hv, hWv⟩ := h
  exact ⟨v, hv, by rw [Matrix.smul_mulVec_assoc, hWv, smul_smul]⟩

lemma eigOf_of_smul {n : ℕ} {c : ℂ} (hc : c ≠ 0) {W : Matrix (Fin n) (Fin n) ℂ}
    {μ : ℂ} (h : eigOf (c • W) μ) : eigOf W (μ / c) := by
  obtain ⟨v, hv, hWv⟩ := h
  refine ⟨v, hv, ?_⟩
  rw [Matrix.smul_mulVec_assoc] at hWv
  have h2 := congrArg (fun w => c⁻¹ • w) hWv
  simp only [smul_smul, inv_mul_cancel₀ hc, one_smul] at h2
  rw [h2]
  congr 1
  rw [div_eq_mul_inv]
  ring

lemma eigOf_zero_matrix {n : ℕ} {μ : ℂ}
    (h : eigOf (0 : Matrix (Fin n) (Fin n) ℂ) μ) : μ = 0 := by
  obtain ⟨v, hv, hWv⟩ := h
  obtain ⟨i, hi⟩ := Function.ne_iff.mp hv
  have h0 := congrFun hWv i
  simp only [Matrix.zero_mulVec, Pi.zero_apply, Pi.smul_apply, smul_eq_mul] at h0
  rcases (mul_eq_zero.mp h0.symm) with h1 | h1
  · exact h1
  · exact absurd h1 (by simpa using hi)

lemma isSpectralRadius_zero_one :
    IsSpectralRadius (0 : Matrix (Fin 1) (Fin 1) ℂ) 0 := by
  constructor
  · refine ⟨0, ⟨fun _ => 1, ?_, ?_⟩, by simp⟩
    · exact Function.ne_iff.mpr ⟨0, by simp⟩
    · simp [Matrix.zero_mulVec]
  · intro μ hμ
    simp [eigOf_zero_matrix hμ]

lemma isSpectralRadius_two_one : IsSpectralRadius !![(2 : ℂ)] 2 := by
  constructor
  · refine ⟨2, ⟨fun _ => 1, ?_, ?_⟩, by simp⟩
    · exact Function.ne_iff.mpr ⟨0, by simp⟩
    · funext j
      simp [Matrix.mulVec, Matrix.dotProduct, Fin.sum_univ_one]
  · intro μ hμ
    obtain ⟨v, hv, hWv⟩ := hμ
    obtain ⟨i, hi⟩ := Function.ne_iff.mp hv
    have hi0 : v 0 ≠ 0 := by
      have : i = 0 := Subsingleton.elim _ _
      simpa [this] using hi
    have h0 := congrFun hWv 0
    simp only [Matrix.mulVec, Matrix.dotProduct, Fin.sum_univ_one, Pi.smul_apply,
      smul_eq_mul, Matrix.cons_val_zero, Matrix.cons_val_fin_one] at h0
    have hμ2 : μ = 2 := by
      have h2 : (2 - μ) * v 0 = 0 := by
        have : (2 : ℂ) * v 0 = μ * v 0 := by simpa using h0
        ring_nf
        linear_combination this
      rcases mul_eq_zero.mp h2 with h3 | h3
      · have := sub_eq_zero.mp h3
        exact this.symm
      · exact absurd h3 hi0
    simp [hμ2]

/-- C1: after the rescaling step of `adjust_spectral_radius` — a fresh draw `W`
whose computed spectral radius is `ρ ≠ 0`, rescaled once by
`spectral_radius / ρ` — the spectral radius of the held recurrent matrix
equals the configured `spectral_radius` (for any nonnegative configured
target, e.g. the default 0.9): `max(abs(eig(W * (sr/ρ)))) = sr`. -/
theorem spectral_radius_invariant_after_rescale {n : ℕ}
    (W : Matrix (Fin n) (Fin n) ℂ) (ρ sr : ℝ)
    (h : IsSpectralRadius W ρ) (hρ : ρ ≠ 0) (hsr : 0 ≤ sr) :
    IsSpectralRadius (adjust_spectral_radius sr ρ W) sr := by
  obtain ⟨⟨μ₀, hμ₀, habs⟩, hub⟩ := h
  have hρ0 : 0 ≤ ρ := habs ▸ Complex.abs.nonneg μ₀
  have hρpos : 0 < ρ := lt_of_le_of_ne hρ0 (Ne.symm hρ)
  by_cases hsr0 : sr = 0
  · subst hsr0
    have hA : adjust_spectral_radius 0 ρ W = 0 := by
      simp [adjust_spectral_radius]
    rw [hA]
    constructor
    · obtain ⟨v, hv, _⟩ := hμ₀
      exact ⟨0, ⟨v, hv, by simp [Matrix.zero_mulVec]⟩, by simp⟩
    · intro μ hμ
      simp [eigOf_zero_matrix hμ]
  · have hc : ((sr / ρ : ℝ) : ℂ) ≠ 0 :=
      Complex.ofReal_ne_zero.mpr (div_ne_zero hsr0 hρ)
    have hcabs : Complex.abs ((sr / ρ : ℝ) : ℂ) = sr / ρ := by
      rw [Complex.abs_ofReal, abs_of_nonneg (div_nonneg hsr hρ0)]
    constructor
    · refine ⟨((sr / ρ : ℝ) : ℂ) * μ₀, eigOf_smul _ hμ₀, ?_⟩
      rw [map_mul, hcabs, habs, div_mul_cancel₀ sr hρ]
    · intro μ hμ
      have hdiv := eigOf_of_smul hc hμ
      have hle := hub _ hdiv
      have hsplit : Complex.abs μ
          = Complex.abs ((sr / ρ : ℝ) : ℂ) * Complex.abs (μ / ((sr / ρ : ℝ) : ℂ)) := by
        have hmc : ((sr / ρ : ℝ) : ℂ) * (μ / ((sr / ρ : ℝ) : ℂ)) = μ := by
          rw [mul_comm]
          exact div_mul_cancel₀ μ hc
        rw [← map_mul, hmc]
      rw [hsplit, hcabs]
      calc sr / ρ * Complex.abs (μ / ((sr / ρ : ℝ) : ℂ))
          ≤ sr / ρ * ρ := by
            exact mul_le_mul_of_nonneg_left hle (div_nonneg hsr hρ0)
        _ = sr := div_mul_cancel₀ sr hρ

/-- C1 witness: the rescaling theorem instantiated at the concrete 1×1 drawn
matrix `[[2]]` (spectral radius 2) and the default configured target 0.9. -/
theorem spectral_radius_invariant_witness :
    IsSpectralRadius !![(2 : ℂ)] 2 ∧ (2 : ℝ) ≠ 0 ∧ (0 : ℝ) ≤ 9 / 10 ∧
      IsSpectralRadius (adjust_spectral_radius (9 / 10) 2 !![(2 : ℂ)]) (9 / 10) :=
  ⟨isSpectralRadius_two_one, by norm_num, by norm_num,
    spectral_radius_invariant_after_rescale _ _ _ isSpectralRadius_two_one
      (by norm_num) (by norm_num)⟩

/-- C3: the code has no guard on a zero spectral radius.  On the all-zero 1×1
drawn matrix (spectral radius exactly 0), `adjust_spectral_radius` still
performs the rescale — dividing the configured target 0.9 by 0 — instead of
reporting a `DegenerateMatrix` error (no error path exists in
`adjust_spectral_radius`); the result (here, under the real-number
idealisation where `x / 0 = 0`, the zero matrix) does not satisfy the
spectral-radius invariant. -/
theorem rescale_unguarded_at_zero_radius :
    IsSpectralRadius (0 : Matrix (Fin 1) (Fin 1) ℂ) 0 ∧
      adjust_spectral_radius (9 / 10) 0 (0 : Matrix (Fin 1) (Fin 1) ℂ) = 0 ∧
      ¬ IsSpectralRadius
        (adjust_spectral_radius (9 / 10) 0 (0 : Matrix (Fin 1) (Fin 1) ℂ)) (9 / 10) := by
  have hA : adjust_spectral_radius (9 / 10) 0 (0 : Matrix (Fin 1) (Fin 1) ℂ) = 0 := by
    simp [adjust_spectral_radius]
  refine ⟨isSpectralRadius_zero_one, hA, ?_⟩
  rw [hA]
  rintro ⟨⟨μ, hμ, habs⟩, -⟩
  rw [eigOf_zero_matrix hμ] at habs
  simp at habs
  norm_num at habs

/-! ### Reservoir dynamics

Embedding of the state loop of `EchoStateNetwork.train`:

    state = torch.zeros(self.reservoir_size)
    states = []
    for t in range(len(train_data)):
        u = torch.tensor([train_data[t]], dtype=torch.float32)
        state = torch.tanh(self.Win @ u + self.W @ state)
        states.append(state.numpy())

The input at each step is the 1-vector `[train_data[t]]`, so `Win` has one
column.  States are vectors `Fin n → ℝ` and the appended trajectory is the
list of states in step order. -/

/-- One step of the recurrence:
`state ← tanh(Win @ [u] + W @ state)`, applied componentwise. -/
noncomputable def stepState {n : ℕ} (Win : Matrix (Fin n) (Fin 1) ℝ)
    (W : Matrix (Fin n) (Fin n) ℝ) (u : ℝ) (s : Fin n → ℝ) : Fin n → ℝ :=
  fun i => Real.tanh ((Win.mulVec (fun _ => u) + W.mulVec s) i)

/-- The state loop: runs the recurrence over the input list from state `s`,
appending each freshly computed state. -/
noncomputable def runTraj {n : ℕ} (Win : Matrix (Fin n) (Fin 1) ℝ)
    (W : Matrix (Fin n) (Fin n) ℝ) (s : Fin n → ℝ) :
    List ℝ → List (Fin n → ℝ)
  | [] => []
  | u :: us =>
    stepState Win W u s :: runTraj Win W (stepState Win W u s) us

/-- The `k`-fold unrolling of the recurrence from state `s` over the inputs
`us`: the state after consuming all of `us`. -/
noncomputable def unroll {n : ℕ} (Win : Matrix (Fin n) (Fin 1) ℝ)
    (W : Matrix (Fin n) (Fin n) ℝ) (s : Fin n → ℝ) (us : List ℝ) : Fin n → ℝ :=
  us.foldl (fun a u => stepState Win W u a) s

/-- The zero initial state `torch.zeros(reservoir_size)`. -/
def zeroState (n : ℕ) : Fin n → ℝ := fun _ => 0

lemma runTraj_length {n : ℕ} (Win : Matrix (Fin n) (Fin 1) ℝ)
    (W : Matrix (Fin n) (Fin n) ℝ) (s : Fin n → ℝ) (us : List ℝ) :
    (runTraj Win W s us).length = us.length := by
  induction us generalizing s with
  | nil => rfl
  | cons u us ih => simp [runTraj, ih]

lemma runTraj_getD {n : ℕ} (Win : Matrix (Fin n) (Fin 1) ℝ)
    (W : Matrix (Fin n) (Fin n) ℝ) (s : Fin n → ℝ) (us : List ℝ) (t : ℕ)
    (ht : t < us.length) :
    (runTraj Win W s us).getD t (zeroState n)
      = unroll Win W s (us.take (t + 1)) := by
  induction us generalizing s t with
  | nil => simp at ht
  | cons u us ih =>
    cases t with
    | zero => simp [runTraj, unroll]
    | succ t =>
      have ht' : t < us.length := by simpa using ht
      simp only [runTraj, List.getD_cons_succ, List.take_succ_cons, unroll,
        List.foldl_cons]
      exact ih _ _ ht'

lemma mem_runTraj {n : ℕ} {Win : Matrix (Fin n) (Fin 1) ℝ}
    {W : Matrix (Fin n) (Fin n) ℝ} {s : Fin n → ℝ} {us : List ℝ}
    {x : Fin n → ℝ} (hx : x ∈ runTraj Win W s us) :
    ∃ u s', x = stepState Win W u s' := by
  induction us generalizing s with
  | nil => simp [runTraj] at hx
  | cons u us ih =>
    rcases (List.mem_cons.mp hx) with h | h
    · exact ⟨u, s, h⟩
    · exact ih h

lemma tanh_lt_one (x : ℝ) : Real.tanh x < 1 := by
  rw [Real.tanh_eq_sinh_div_cosh]
  exact (div_lt_one (Real.cosh_pos x)).mpr (Real.sinh_lt_cosh x)

lemma neg_one_lt_tanh (x : ℝ) : -1 < Real.tanh x := by
  have h : Real.tanh (-x) < 1 := tanh_lt_one (-x)
  rw [Real.tanh_neg] at h
  linarith

/-- C2: the forward pass of `EchoStateNetwork.train` starts from the zero
state, and for each time step `t` in order updates the state to
`tanh(Win @ [input[t]] + W @ state)` and appends the new state: the produced
trajectory has exactly `T` states, and its `t`-th state is the unrolling of
the recurrence from zero over the first `t + 1` inputs. -/
theorem forward_pass_unrolls_from_zero {n : ℕ} (Win : Matrix (Fin n) (Fin 1) ℝ)
    (W : Matrix (Fin n) (Fin n) ℝ) (us : List ℝ) :
    (runTraj Win W (zeroState n) us).length = us.length ∧
      ∀ t, t < us.length →
        (runTraj Win W (zeroState n) us).getD t (zeroState n)
          = unroll Win W (zeroState n) (us.take (t + 1)) :=
  ⟨runTraj_length Win W _ us, fun t ht => runTraj_getD Win W _ us t ht⟩

/-- C2 witness: the forward-pass theorem instantiated on a 1-neuron reservoir
with `Win = W = [[1]]` and the single-step input `[0]`. -/
theorem forward_pass_unrolls_witness :
    (0 : ℕ) < ([(0 : ℝ)]).length ∧
      (runTraj !![(1 : ℝ)] !![(1 : ℝ)] (zeroState 1) [(0 : ℝ)]).getD 0 (zeroState 1)
        = unroll !![(1 : ℝ)] !![(1 : ℝ)] (zeroState 1) (([(0 : ℝ)]).take 1) :=
  ⟨by simp,
    (forward_pass_unrolls_from_zero !![(1 : ℝ)] !![(1 : ℝ)] [(0 : ℝ)]).2 0 (by simp)⟩

/-- C5: every component of every state appended during the forward pass lies
strictly within `(-1, 1)` — each appended state is an output of the `tanh`
squashing. -/
theorem trajectory_components_bounded {n : ℕ} (Win : Matrix (Fin n) (Fin 1) ℝ)
    (W : Matrix (Fin n) (Fin n) ℝ) (us : List ℝ)
    (x : Fin n → ℝ) (hx : x ∈ runTraj Win W (zeroState n) us) (i : Fin n) :
    -1 < x i ∧ x i < 1 := by
  obtain ⟨u, s', hstep⟩ := mem_runTraj hx
  rw [hstep]
  exact ⟨neg_one_lt_tanh _, tanh_lt_one _⟩

/-- C5 witness: the boundedness theorem applied to the first state of a
concrete one-step forward pass on a 1-neuron reservoir with zero weights. -/
theorem trajectory_components_bounded_witness :
    stepState !![(0 : ℝ)] !![(0 : ℝ)] 0 (zeroState 1)
        ∈ runTraj !![(0 : ℝ)] !![(0 : ℝ)] (zeroState 1) [(0 : ℝ)] ∧
      -1 < stepState !![(0 : ℝ)] !![(0 : ℝ)] 0 (zeroState 1) 0 ∧
        stepState !![(0 : ℝ)] !![(0 : ℝ)] 0 (zeroState 1) 0 < 1 :=
  ⟨by simp [runTraj],
    trajectory_components_bounded !![(0 : ℝ)] !![(0 : ℝ)] [(0 : ℝ)] _
      (by simp [runTraj]) 0⟩

/-- C7: the forward pass is deterministic — it is a pure function of
`(Win, W, input_sequence)` with no source of randomness, so two runs on
identical weights and inputs produce identical trajectories. -/
theorem forward_pass_deterministic {n : ℕ}
    (Win₁ Win₂ : Matrix (Fin n) (Fin 1) ℝ) (W₁ W₂ : Matrix (Fin n) (Fin n) ℝ)
    (us₁ us₂ : List ℝ) (hWin : Win₁ = Win₂) (hW : W₁ = W₂) (hus : us₁ = us₂) :
    runTraj Win₁ W₁ (zeroState n) us₁ = runTraj Win₂ W₂ (zeroState n) us₂ := by
  rw [hWin, hW, hus]

/-- C7 witness: determinism instantiated on a concrete 1-neuron run. -/
theorem forward_pass_deterministic_witness :
    !![(1 : ℝ)] = !![(1 : ℝ)] ∧ !![(2 : ℝ)] = !![(2 : ℝ)] ∧
      [(3 : ℝ)] = [(3 : ℝ)] ∧
      runTraj !![(1 : ℝ)] !![(2 : ℝ)] (zeroState 1) [(3 : ℝ)]
        = runTraj !![(1 : ℝ)] !![(2 : ℝ)] (zeroState 1) [(3 : ℝ)] :=
  ⟨rfl, rfl, rfl,
    forward_pass_deterministic !![(1 : ℝ)] !![(1 : ℝ)] !![(2 : ℝ)] !![(2 : ℝ)]
      [(3 : ℝ)] [(3 : ℝ)] rfl rfl rfl⟩

/-! ### EchoStateNetwork composition and the trial protocol

`EchoStateNetwork` holds the hyperparameters, the weights `Win`/`W`, and a
ridge readout.  `train` runs the state loop, refits the readout from scratch
on the collected states against the targets (`self.readout.fit(states,
target_data)` — sklearn's `fit` is a full re-solve that ignores any
previously fitted coefficients), and returns the in-sample predictions
`self.readout.predict(states)`.  The ridge solve itself is an external
library call (sklearn `Ridge`), so the development is parametric in the pair
`(fitRO, predictRO)`: `fitRO` maps the collected states and targets to
fitted readout parameters, `predictRO` applies fitted parameters to states.
Every theorem below holds for an arbitrary such pair, hence in particular
for ridge regression. -/

/-- The fields of `EchoStateNetwork` (the reservoir size is the type index
`n`, which fixes the shapes of `Win`, `W`, and the state). -/
structure ESN (n : ℕ) (R : Type) where
  input_dim : ℕ
  output_dim : ℕ
  spectral_radius : ℝ
  alpha : ℝ
  Win : Matrix (Fin n) (Fin 1) ℝ
  W : Matrix (Fin n) (Fin n) ℝ
  readout : R

/-- Embedding of `EchoStateNetwork.train`: run the state loop from zero, refit
`self.readout` on the collected states against `target_data`, return the
updated network together with the in-sample predictions. -/
noncomputable def ESN.train {n : ℕ} {R : Type}
    (fitRO : List (Fin n → ℝ) → List ℝ → R)
    (predictRO : R → List (Fin n → ℝ) → List ℝ)
    (e : ESN n R) (train_data target_data : List ℝ) : ESN n R × List ℝ :=
  let states := runTraj e.Win e.W (zeroState n) train_data
  let fitted := fitRO states target_data
  ({ e with readout := fitted }, predictRO fitted states)

/-- Embedding of `mean_squared_error`: mean of squared element-wise
differences. -/
noncomputable def mse (target pred : List ℝ) : ℝ :=
  (List.zipWith (fun a b => (a - b) ^ 2) target pred).sum / target.length

/-- The body of one trial of `train_esn` after the fresh weight draw: train
on the training split, record train MSE, then call `model.train` again on
the test split and record test MSE; returns `((train_mse, test_mse),
final_network)`. -/
noncomputable def trialBody {n : ℕ} {R : Type}
    (fitRO : List (Fin n → ℝ) → List ℝ → R)
    (predictRO : R → List (Fin n → ℝ) → List ℝ)
    (e : ESN n R) (train_data target_data test_data test_target : List ℝ) :
    (ℝ × ℝ) × ESN n R :=
  let p₁ := ESN.train fitRO predictRO e train_data target_data
  let m₁ := mse target_data p₁.2
  let p₂ := ESN.train fitRO predictRO p₁.1 test_data test_target
  let m₂ := mse test_target p₂.2
  ((m₁, m₂), p₂.1)

/-- C9: `EchoStateNetwork.train` modifies only the readout: every other field
of the network — `input_dim`, `output_dim`, `spectral_radius`, `alpha`,
`Win`, `W` (and the reservoir size, fixed as the type index `n`) — is
identical before and after the call, for any readout implementation and any
data. -/
theorem train_frame {n : ℕ} {R : Type}
    (fitRO : List (Fin n → ℝ) → List ℝ → R)
    (predictRO : R → List (Fin n → ℝ) → List ℝ)
    (e : ESN n R) (train_data target_data : List ℝ) :
    (ESN.train fitRO predictRO e train_data target_data).1.input_dim = e.input_dim ∧
    (ESN.train fitRO predictRO e train_data target_data).1.output_dim = e.output_dim ∧
    (ESN.train fitRO predictRO e train_data target_data).1.spectral_radius
      = e.spectral_radius ∧
    (ESN.train fitRO predictRO e train_data target_data).1.alpha = e.alpha ∧
    (ESN.train fitRO predictRO e train_data target_data).1.Win = e.Win ∧
    (ESN.train fitRO predictRO e train_data target_data).1.W = e.W :=
  ⟨rfl, rfl, rfl, rfl, rfl, rfl⟩

/-- C4: in every trial, test evaluation is `model.train(test_data,
test_target)`: the recorded test MSE is computed from the in-sample
predictions of a readout refit from scratch on the test-data trajectory, and
does not depend on the training split at all (in particular the readout
fitted on the training data is not applied to the test states). -/
theorem test_eval_refits_on_test {n : ℕ} {R : Type}
    (fitRO : List (Fin n → ℝ) → List ℝ → R)
    (predictRO : R → List (Fin n → ℝ) → List ℝ)
    (e : ESN n R)
    (train_data target_data train_data' target_data' test_data test_target : List ℝ) :
    (trialBody fitRO predictRO e train_data target_data test_data test_target).1.2
        = mse test_target
            (predictRO (fitRO (runTraj e.Win e.W (zeroState n) test_data) test_target)
              (runTraj e.Win e.W (zeroState n) test_data)) ∧
      (trialBody fitRO predictRO e train_data target_data test_data test_target).1.2
        = (trialBody fitRO predictRO e train_data' target_data' test_data
            test_target).1.2 :=
  ⟨rfl, rfl⟩

/-! ### ReadoutModel dimension contract -/

/-- The error raised on shape disagreement. -/
inductive RegressionError where
  | DimensionMismatch
deriving DecidableEq

/-- Modelled from the spec: the validation performed by `ReadoutModel.fit`
(the sklearn `Ridge.fit` call in `EchoStateNetwork.train`, whose
implementation is not part of this repository).  Per the spec, `fit` fails
with `DimensionMismatch` if the trajectory's per-step feature width differs
from `reservoir_size` or the number of states differs from the number of
targets, and otherwise accepts the data with no truncation or broadcast; the
ridge solve itself is an external library call and is represented by the
accepted `(states, targets)` pair. -/
def readoutFit (reservoir_size : ℕ) (states : List (List ℝ))
    (targets : List ℝ) : Except RegressionError (List (List ℝ) × List ℝ) :=
  if (∀ s ∈ states, s.length = reservoir_size) ∧ states.length = targets.length then
    Except.ok (states, targets)
  else
    Except.error RegressionError.DimensionMismatch

/-- Modelled from the spec: the validation performed by
`ReadoutModel.predict` (sklearn `Ridge.predict`, not part of this
repository): fails with `DimensionMismatch` if the trajectory's per-step
feature width differs from `reservoir_size`, otherwise accepts the states
(the application of the fitted coefficients is the external library call). -/
def readoutPredict (reservoir_size : ℕ) (states : List (List ℝ)) :
    Except RegressionError (List (List ℝ)) :=
  if ∀ s ∈ states, s.length = reservoir_size then
    Except.ok states
  else
    Except.error RegressionError.DimensionMismatch

/-- C8: `ReadoutModel.fit` fails with `DimensionMismatch` exactly when the
per-step feature width differs from `reservoir_size` or the number of states
differs from the number of targets, and accepts the data unchanged (no
truncation, no broadcast) exactly when the dimensions match;
`ReadoutModel.predict` fails exactly when the feature width differs from
`reservoir_size` and accepts the states unchanged otherwise. -/
theorem readout_dimension_contract (reservoir_size : ℕ)
    (states : List (List ℝ)) (targets : List ℝ) :
    (readoutFit reservoir_size states targets
        = Except.error RegressionError.DimensionMismatch
      ↔ ¬ ((∀ s ∈ states, s.length = reservoir_size)
            ∧ states.length = targets.length)) ∧
    ((∀ s ∈ states, s.length = reservoir_size) ∧ states.length = targets.length
      → readoutFit reservoir_size states targets = Except.ok (states, targets)) ∧
    (readoutPredict reservoir_size states
        = Except.error RegressionError.DimensionMismatch
      ↔ ¬ (∀ s ∈ states, s.length = reservoir_size)) ∧
    ((∀ s ∈ states, s.length = reservoir_size)
      → readoutPredict reservoir_size states = Except.ok states) := by
  refine ⟨?_, ?_, ?_, ?_⟩ <;>
    simp only [readoutFit, readoutPredict] <;>
    split <;>
    simp_all

/-- C8 witness: on the concrete trajectory `[[1, 2]]` with one target `[5]`
and `reservoir_size = 2`, both dimension checks pass, `fit` accepts the pair
and `predict` accepts the states. -/
theorem readout_dimension_contract_witness :
    ((∀ s ∈ [[(1 : ℝ), 2]], s.length = 2) ∧
        ([[(1 : ℝ), 2]] : List (List ℝ)).length = ([(5 : ℝ)]).length) ∧
      readoutFit 2 [[(1 : ℝ), 2]] [(5 : ℝ)] = Except.ok ([[(1 : ℝ), 2]], [(5 : ℝ)]) ∧
      readoutPredict 2 [[(1 : ℝ), 2]] = Except.ok [[(1 : ℝ), 2]] := by
  have h : (∀ s ∈ [[(1 : ℝ), 2]], s.length = 2) ∧
      ([[(1 : ℝ), 2]] : List (List ℝ)).length = ([(5 : ℝ)]).length := by
    simp
  exact ⟨h, (readout_dimension_contract 2 [[(1 : ℝ), 2]] [(5 : ℝ)]).2.1 h,
    (readout_dimension_contract 2 [[(1 : ℝ), 2]] [(5 : ℝ)]).2.2.2 h.1⟩

/-! ### Mackey-Glass generator

Embedding of

    def mackey_glass(T, tau=17, n=10, beta=0.2, gamma=0.1):
        x = np.zeros(T)
        x[0] = 1.2
        for t in range(1, T):
            if t - tau >= 0:
                x[t] = x[t-1] + beta * x[t-tau] / (1 + x[t-tau]**n) - gamma * x[t-1]
            else:
                x[t] = x[t-1]
        return x

with numpy-array semantics: the sequence is a list of length `T` of zeros,
index 0 is assigned 1.2 (an index error — hence `none` — when `T = 0`), and
the loop assigns index `t` for `t = 1, …, T - 1` in order, reading the
current contents of the array.  The delay exponent parameter `n` of the
source is named `nExp` here to avoid clashing with the reservoir size. -/

/-- One loop iteration: the assignment to `x[t]`.  The guard `t - tau >= 0`
on Python integers is `tau ≤ t`. -/
noncomputable def mgBody (tau nExp : ℕ) (beta gamma : ℝ) (x : List ℝ) (t : ℕ) :
    List ℝ :=
  if tau ≤ t then
    x.set t (x.getD (t - 1) 0
      + beta * x.getD (t - tau) 0 / (1 + x.getD (t - tau) 0 ^ nExp)
      - gamma * x.getD (t - 1) 0)
  else
    x.set t (x.getD (t - 1) 0)

/-- The array after `x = np.zeros(T); x[0] = 1.2`. -/
noncomputable def mgInit (T : ℕ) : List ℝ := (List.replicate T (0 : ℝ)).set 0 1.2

/-- The array after the first `k` loop iterations (`t = 1, …, k`). -/
noncomputable def mgIter (T tau nExp : ℕ) (beta gamma : ℝ) (k : ℕ) : List ℝ :=
  (List.range' 1 k).foldl (mgBody tau nExp beta gamma) (mgInit T)

/-- Embedding of `mackey_glass`: `none` models the index error of `x[0] = 1.2` on a
length-0 array; otherwise the loop runs for `t = 1, …, T - 1`. -/
noncomputable def mackey_glass (T tau nExp : ℕ) (beta gamma : ℝ) :
    Option (List ℝ) :=
  if 0 < T then some (mgIter T tau nExp beta gamma (T - 1)) else none

lemma mgBody_length (tau nExp : ℕ) (beta gamma : ℝ) (x : List ℝ) (t : ℕ) :
    (mgBody tau nExp beta gamma x t).length = x.length := by
  unfold mgBody
  split <;> simp

lemma mgIter_length (T tau nExp : ℕ) (beta gamma : ℝ) (k : ℕ) :
    (mgIter T tau nExp beta gamma k).length = T := by
  induction k with
  | zero => simp [mgIter, mgInit]
  | succ k ih =>
    unfold mgIter at ih ⊢
    rw [List.range'_1_concat, List.foldl_append]
    simpa [mgBody_length] using ih

lemma mgIter_succ (T tau nExp : ℕ) (beta gamma : ℝ) (k : ℕ) :
    mgIter T tau nExp beta gamma (k + 1)
      = mgBody tau nExp beta gamma (mgIter T tau nExp beta gamma k) (k + 1) := by
  unfold mgIter
  rw [List.range'_1_concat, List.foldl_append]
  simp [Nat.add_comm]

lemma mgBody_getD_ne (tau nExp : ℕ) (beta gamma : ℝ) (x : List ℝ) {t j : ℕ}
    (h : t ≠ j) :
    (mgBody tau nExp beta gamma x t).getD j 0 = x.getD j 0 := by
  unfold mgBody
  split <;> simp [List.getD_eq_getElem?_getD, List.getElem?_set_ne h]

/-- Entries at indices `≤ k` are final after iteration `k`: later iterations
write only higher indices. -/
lemma mgIter_stable (T tau nExp : ℕ) (beta gamma : ℝ) {j k k' : ℕ}
    (hjk : j ≤ k) (hkk : k ≤ k') :
    (mgIter T tau nExp beta gamma k').getD j 0
      = (mgIter T tau nExp beta gamma k).getD j 0 := by
  induction k', hkk using Nat.le_induction with
  | base => rfl
  | succ m hm ih =>
    rw [mgIter_succ, mgBody_getD_ne]
    · exact ih
    · omega

lemma mgIter_getD_zero (T tau nExp : ℕ) (beta gamma : ℝ) (k : ℕ) (hT : 0 < T) :
    (mgIter T tau nExp beta gamma k).getD 0 0 = 1.2 := by
  rw [mgIter_stable T tau nExp beta gamma (Nat.le_refl 0) (Nat.zero_le k)]
  simp only [mgIter, List.range', List.foldl_nil, mgInit]
  simp [List.getD_eq_getElem?_getD, List.getElem?_set_self, hT]

/-- The value written at step `t` (`1 ≤ t < T`), in terms of the array state
after step `t - 1`. -/
lemma mgIter_getD_self (T tau nExp : ℕ) (beta gamma : ℝ) {t : ℕ}
    (ht1 : 1 ≤ t) (htT : t < T) :
    (mgIter T tau nExp beta gamma t).getD t 0
      = (if tau ≤ t then
          (mgIter T tau nExp beta gamma (t - 1)).getD (t - 1) 0
            + beta * (mgIter T tau nExp beta gamma (t - 1)).getD (t - tau) 0
              / (1 + (mgIter T tau nExp beta gamma (t - 1)).getD (t - tau) 0 ^ nExp)
            - gamma * (mgIter T tau nExp beta gamma (t - 1)).getD (t - 1) 0
        else (mgIter T tau nExp beta gamma (t - 1)).getD (t - 1) 0) := by
  obtain ⟨m, rfl⟩ : ∃ m, t = m + 1 := ⟨t - 1, by omega⟩
  rw [mgIter_succ]
  have hlen : m + 1 < (mgIter T tau nExp beta gamma m).length := by
    rw [mgIter_length]; exact htT
  unfold mgBody
  split <;>
    simp [List.getD_eq_getElem?_getD, List.getElem?_set_self, hlen]

/-- C6 (amended: positive delay `1 ≤ tau`): the generator is deterministic in
its parameters and the produced sequence satisfies `x[0] = 1.2`,
`x[t] = x[t-1]` for `1 ≤ t < tau`, and
`x[t] = x[t-1] + beta·x[t-tau]/(1 + x[t-tau]^nExp) - gamma·x[t-1]` for
`tau ≤ t < T`. -/
theorem mackey_glass_recurrence (T tau nExp : ℕ) (beta gamma : ℝ) (l : List ℝ)
    (hl : mackey_glass T tau nExp beta gamma = some l) (htau : 1 ≤ tau) :
    l.length = T ∧ l.getD 0 0 = 1.2 ∧
      (∀ t, 1 ≤ t → t < tau → t < T → l.getD t 0 = l.getD (t - 1) 0) ∧
      (∀ t, tau ≤ t → t < T →
        l.getD t 0 = l.getD (t - 1) 0
          + beta * l.getD (t - tau) 0 / (1 + l.getD (t - tau) 0 ^ nExp)
          - gamma * l.getD (t - 1) 0) := by
  have hT : 0 < T := by
    by_contra h
    simp [mackey_glass, h] at hl
  have hlval : l = mgIter T tau nExp beta gamma (T - 1) := by
    simp only [mackey_glass, if_pos hT, Option.some.injEq] at hl
    exact hl.symm
  subst hlval
  refine ⟨mgIter_length T tau nExp beta gamma (T - 1),
    mgIter_getD_zero T tau nExp beta gamma (T - 1) hT, ?_, ?_⟩
  · intro t ht1 httau htT
    have hstab : (mgIter T tau nExp beta gamma (T - 1)).getD t 0
        = (mgIter T tau nExp beta gamma t).getD t 0 :=
      mgIter_stable T tau nExp beta gamma (Nat.le_refl t) (by omega)
    rw [hstab, mgIter_getD_self T tau nExp beta gamma ht1 htT,
      if_neg (by omega : ¬ tau ≤ t)]
    exact (mgIter_stable T tau nExp beta gamma (Nat.le_refl (t - 1))
      (by omega)).symm
  · intro t httau htT
    have ht1 : 1 ≤ t := le_trans htau httau
    have hstab : (mgIter T tau nExp beta gamma (T - 1)).getD t 0
        = (mgIter T tau nExp beta gamma t).getD t 0 :=
      mgIter_stable T tau nExp beta gamma (Nat.le_refl t) (by omega)
    have h1 : (mgIter T tau nExp beta gamma (T - 1)).getD (t - 1) 0
        = (mgIter T tau nExp beta gamma (t - 1)).getD (t - 1) 0 :=
      mgIter_stable T tau nExp beta gamma (Nat.le_refl (t - 1)) (by omega)
    have h2 : (mgIter T tau nExp beta gamma (T - 1)).getD (t - tau) 0
        = (mgIter T tau nExp beta gamma (t - 1)).getD (t - tau) 0 :=
      mgIter_stable T tau nExp beta gamma (by omega) (by omega)
    rw [hstab, mgIter_getD_self T tau nExp beta gamma ht1 htT,
      if_pos httau, h1, h2]

/-- C6 counterexample: with delay `tau = 0` (parameters `T = 2`, `nExp = 1`,
`beta = 1`, `gamma = 0`) the produced sequence is `[1.2, 1.2]` — the loop
reads the not-yet-assigned zero at `x[t - tau] = x[t]` — and the claimed
recurrence fails at `t = 1` on the produced values, so the claim does not
hold for every parameter choice. -/
theorem mackey_glass_recurrence_cex :
    mackey_glass 2 0 1 1 0 = some [(1.2 : ℝ), 1.2] ∧
      ¬ (([(1.2 : ℝ), 1.2]).getD 1 0
          = ([(1.2 : ℝ), 1.2]).getD 0 0
            + 1 * ([(1.2 : ℝ), 1.2]).getD 1 0
              / (1 + ([(1.2 : ℝ), 1.2]).getD 1 0 ^ 1)
            - 0 * ([(1.2 : ℝ), 1.2]).getD 0 0) := by
  constructor
  · have h1 : mgIter 2 0 1 1 0 1 = mgBody 0 1 1 0 (mgIter 2 0 1 1 0 0) 1 :=
      mgIter_succ 2 0 1 1 0 0
    have h0 : mgIter 2 0 1 1 0 0 = mgInit 2 := by
      simp [mgIter, List.range']
    rw [show mackey_glass 2 0 1 1 0 = some (mgIter 2 0 1 1 0 1) from rfl, h1, h0]
    simp only [mgInit, mgBody, List.replicate]
    norm_num
  · simp only [List.getD_cons_zero, List.getD_cons_succ]
    norm_num

/-- C6 witness: the amended recurrence theorem instantiated at `T = 2` with
the default parameters `tau = 17`, `nExp = 10`, `beta = 0.2`, `gamma = 0.1`,
whose produced sequence is `[1.2, 1.2]`. -/
theorem mackey_glass_recurrence_witness :
    mackey_glass 2 17 10 0.2 0.1 = some [(1.2 : ℝ), 1.2] ∧ 1 ≤ 17 ∧
      (([(1.2 : ℝ), 1.2]).length = 2 ∧ ([(1.2 : ℝ), 1.2]).getD 0 0 = 1.2 ∧
        (∀ t, 1 ≤ t → t < 17 → t < 2 →
          ([(1.2 : ℝ), 1.2]).getD t 0 = ([(1.2 : ℝ), 1.2]).getD (t - 1) 0) ∧
        (∀ t, 17 ≤ t → t < 2 →
          ([(1.2 : ℝ), 1.2]).getD t 0 = ([(1.2 : ℝ), 1.2]).getD (t - 1) 0
            + 0.2 * ([(1.2 : ℝ), 1.2]).getD (t - 17) 0
              / (1 + ([(1.2 : ℝ), 1.2]).getD (t - 17) 0 ^ 10)
            - 0.1 * ([(1.2 : ℝ), 1.2]).getD (t - 1) 0)) := by
  have hval : mackey_glass 2 17 10 0.2 0.1 = some [(1.2 : ℝ), 1.2] := by
    have h1 : mgIter 2 17 10 0.2 0.1 1 = mgBody 17 10 0.2 0.1 (mgIter 2 17 10 0.2 0.1 0) 1 :=
      mgIter_succ 2 17 10 0.2 0.1 0
    have h0 : mgIter 2 17 10 0.2 0.1 0 = mgInit 2 := by
      simp [mgIter, List.range']
    rw [show mackey_glass 2 17 10 0.2 0.1 = some (mgIter 2 17 10 0.2 0.1 1) from rfl,
      h1, h0]
    simp only [mgInit, mgBody, List.replicate]
    norm_num
  exact ⟨hval, by norm_num,
    mackey_glass_recurrence 2 17 10 0.2 0.1 [(1.2 : ℝ), 1.2] hval (by norm_num)⟩

/-- C10: the generator requires a positive length: at `T = 0` the assignment
`x[0] = 1.2` has no valid index and the call fails; for every `T ≥ 1` a
sequence is produced. -/
theorem mackey_glass_positive_length (T tau nExp : ℕ) (beta gamma : ℝ) :
    mackey_glass 0 tau nExp beta gamma = none ∧
      (1 ≤ T → (mackey_glass T tau nExp beta gamma).isSome = true) := by
  constructor
  · simp [mackey_glass]
  · intro hT
    simp [mackey_glass, Nat.lt_of_lt_of_le Nat.zero_lt_one hT]

/-- C10 witness: the length precondition instantiated at `T = 1` with the
default parameters. -/
theorem mackey_glass_positive_length_witness :
    mackey_glass 0 17 10 0.2 0.1 = none ∧ 1 ≤ 1 ∧
      (mackey_glass 1 17 10 0.2 0.1).isSome = true :=
  ⟨(mackey_glass_positive_length 1 17 10 0.2 0.1).1, le_refl 1,
    (mackey_glass_positive_length 1 17 10 0.2 0.1).2 (le_refl 1)⟩

end Reservoir
